import Mathlib

/-!
Verification of the SevSeg seven-segment display driver (SevSeg.cpp).

The development shallow-embeds the numeric encoder (findDigits, setDigitCodes),
the refresh engine (lightsOn, lightsOff, updateDisplay, clearDisplay) and the
static range bounds of findDigits.  C++ machine integers are modelled as
Nat and Int, with explicit mod 256 where a long value is stored into a byte.
-/

set_option autoImplicit false

namespace SevSeg

/-- Glyph sentinel for a blank position (SevSeg.cpp line 42). -/
def BLANK : Nat := 10

/-- Glyph sentinel for a dash (SevSeg.cpp line 43). -/
def DASH : Nat := 11

/-- Modelled from the spec: the header SevSeg.h is not part of src/.  The spec
fixes 8 segment lines (7 segments plus the decimal point), so the header
constant S7_SEGMENTS is 8. -/
def S7_SEGMENTS : Nat := 8

/-- Modelled from the spec: the header constant SEGMENTS used by the
resistors-on-segments lightsOn and lightsOff loops; the spec fixes 8 segment
lines (7 segments plus the decimal point). -/
def SEGMENTS : Nat := 8

/-- The powers-of-ten table, SevSeg.cpp lines 46-56. -/
def powersOf10 : List Int :=
  [1, 10, 100, 1000, 10000, 100000, 1000000, 10000000, 100000000, 1000000000]

/-- Read the powers-of-ten table at an index (array read in the C++ source). -/
def pow10 (i : Nat) : Int := powersOf10.getD i 0

/-- The upper display bound: maxNum = powersOf10[numDigits] - 1
(SevSeg.cpp line 344). -/
def maxValue (numDigits : Nat) : Int := pow10 numDigits - 1

/-- The lower display bound: minNum = -(powersOf10[numDigits - 1] - 1)
(SevSeg.cpp line 345). -/
def minValue (numDigits : Nat) : Int := -(pow10 (numDigits - 1) - 1)

/-- The digit extraction loop of findDigits (SevSeg.cpp lines 365-369),
compiled with the remaining iteration count as explicit fuel: the source loop
runs digitNum from dn while digitNum < numDigits, so fuel = numDigits - dn.
The quotient is stored into a byte array, hence the mod 256. -/
def extractLoop (numDigits : Nat) : Int → Nat → Nat → List Nat
  | _, _, 0 => []
  | n, digitNum, fuel + 1 =>
    let factor := pow10 (numDigits - 1 - digitNum)
    let d := ((Int.tdiv n factor).emod 256).toNat
    d :: extractLoop numDigits (n - (d : Int) * factor) (digitNum + 1) fuel

/-- The glyph list produced by findDigits before the leading-zero blanking
pass: either the digits of a non-negative value over all positions, or DASH
followed by the digits of the absolute value over the remaining positions
(SevSeg.cpp lines 354-369). -/
def rawDigits (numDigits : Nat) (numToShow : Int) : List Nat :=
  if numToShow < 0 then
    DASH :: extractLoop numDigits (-numToShow) 1 (numDigits - 1)
  else
    extractLoop numDigits numToShow 0 numDigits

/-- The leading-zero blanking loop of findDigits (SevSeg.cpp lines 372-380):
while the index is below the bound, a glyph 0 becomes BLANK, a glyph in 1..9
stops the loop, and any other glyph is passed over.  The bound
numDigits - 1 - decPlaces is computed in int arithmetic, hence the Int
parameter. -/
def blankScan (bound : Int) : Nat → List Nat → List Nat
  | _, [] => []
  | i, d :: rest =>
    if (i : Int) < bound then
      if d = 0 then BLANK :: blankScan bound (i + 1) rest
      else if d ≤ 9 then d :: rest
      else d :: blankScan bound (i + 1) rest
    else d :: rest

/-- findDigits with the range bounds passed explicitly (they are static locals
in the source; see findDigitsStateful).  SevSeg.cpp lines 343-383. -/
def findDigitsWith (maxNum minNum : Int) (numDigits : Nat) (numToShow : Int)
    (decPlaces : Nat) : List Nat :=
  if numToShow > maxNum ∨ numToShow < minNum then
    List.replicate numDigits DASH
  else
    blankScan ((numDigits : Int) - 1 - (decPlaces : Int)) 0
      (rawDigits numDigits numToShow)

/-- findDigits as it behaves on its first call, when the static locals maxNum
and minNum are initialised from the current digit count. -/
def findDigits (numDigits : Nat) (numToShow : Int) (decPlaces : Nat) :
    List Nat :=
  findDigitsWith (maxValue numDigits) (minValue numDigits) numDigits numToShow
    decPlaces

/-- findDigits together with the C++ static-local semantics of maxNum and
minNum (SevSeg.cpp lines 344-345): the bounds are computed from the digit
count only when no cached value exists (the first call) and are reused
unchanged by every later call.  Returns the new cache and the glyph list. -/
def findDigitsStateful (numDigits : Nat) (cached : Option (Int × Int))
    (numToShow : Int) (decPlaces : Nat) : Option (Int × Int) × List Nat :=
  let b := match cached with
    | some b => b
    | none => (maxValue numDigits, minValue numDigits)
  (some b, findDigitsWith b.1 b.2 numDigits numToShow decPlaces)

/-- The glyph-to-segment lookup table of setDigitCodes
(SevSeg.cpp lines 394-409), index order 0-9, BLANK, DASH. -/
def digitCodeMap : List Nat :=
  [0b00111111,  -- 0
   0b00000110,  -- 1
   0b01011011,  -- 2
   0b01001111,  -- 3
   0b01100110,  -- 4
   0b01101101,  -- 5
   0b01111101,  -- 6
   0b00000111,  -- 7
   0b01111111,  -- 8
   0b01101111,  -- 9
   0b00000000,  -- BLANK
   0b01000000]  -- DASH

/-- setDigitCodes (SevSeg.cpp lines 390-419): map each glyph through the
lookup table and set the decimal-point bit on the position whose index equals
numDigits - 1 - decPlaces; that comparison is int arithmetic in the source,
hence the Int equality. -/
def setDigitCodes (numDigits : Nat) (digits : List Nat) (decPlaces : Nat) :
    List Nat :=
  (List.range numDigits).map (fun digitNum =>
    let code := digitCodeMap.getD (digits.getD digitNum 0) 0
    if (digitNum : Int) = (numDigits : Int) - 1 - (decPlaces : Int) then
      code ||| 0b10000000
    else code)

/-- Decode one segment code back through the glyph table, ignoring the
decimal-point bit (bit 7): the index of code &&& 0x7F in digitCodeMap. -/
def decodeCode (c : Nat) : Nat :=
  digitCodeMap.findIdx (fun x => x == c &&& 0x7F)

/-- The integer denoted by a list of decimal digit glyphs, most significant
first. -/
def digitsVal : List Nat → Int
  | [] => 0
  | d :: rest => (d : Int) * (10 : Int) ^ rest.length + digitsVal rest

/-- Decode a glyph list to the integer it displays: ignore BLANK positions and
treat a leading DASH as a minus sign. -/
def decodeGlyphs (gs : List Nat) : Int :=
  let fs := gs.filter (fun g => g != BLANK)
  if fs.head? = some DASH then -(digitsVal fs.tail) else digitsVal fs

/-- Modelled from the spec (and from the claim wording for C5): a blanking
scan that replaces a glyph with BLANK exactly when its index is below the
bound and the glyph is 0, and stops scanning at the first nonzero glyph
encountered. -/
def specBlankScan (bound : Int) : Nat → List Nat → List Nat
  | _, [] => []
  | i, d :: rest =>
    if (i : Int) < bound ∧ d = 0 then BLANK :: specBlankScan bound (i + 1) rest
    else d :: rest

/-- The driver configuration fixed by begin (SevSeg.cpp lines 73-127): the
digit count and the active logic levels of digit and segment lines.  The off
levels are their negations (digitOff = !digitOn, segmentOff = !segmentOn,
lines 103-104). -/
structure DriveConfig where
  numDigits : Nat
  digitOn : Bool
  segmentOn : Bool

/-- The mutable driver state: the logic level of every digit line and segment
line, the refresh cursor (member byte common), and the per-digit segment
codes.  Lines are indexed by position; line maps beyond the configured counts
model unconnected pins. -/
structure DisplayState where
  digitLines : Nat → Bool
  segLines : Nat → Bool
  common : Nat
  digitCodes : Nat → Nat

/-- The compile-time drive strategy switch RESISTORS
(SevSeg.cpp lines 136-185). -/
inductive Resistors where
  | onDigits
  | onSegments

/-- REFRESH_STEPS: S7_SEGMENTS for resistors on digits (line 139), numDigits
for resistors on segments (line 164). -/
def refreshSteps (r : Resistors) (numDigits : Nat) : Nat :=
  match r with
  | .onDigits => S7_SEGMENTS
  | .onSegments => numDigits

/-- lightsOn (SevSeg.cpp lines 141-151 and 166-176): activate the digit lines
whose code has this segment bit set and then the segment line (resistors on
digits), or the segment lines set in this digit code and then the digit line
(resistors on segments). -/
def lightsOn (r : Resistors) (cfg : DriveConfig) (s : DisplayState)
    (step : Nat) : DisplayState :=
  match r with
  | .onDigits =>
    { s with
      digitLines := fun i =>
        if i < cfg.numDigits ∧ s.digitCodes i &&& (1 <<< step) ≠ 0 then
          cfg.digitOn
        else s.digitLines i,
      segLines := fun j => if j = step then cfg.segmentOn else s.segLines j }
  | .onSegments =>
    { s with
      segLines := fun j =>
        if j < SEGMENTS ∧ s.digitCodes step &&& (1 <<< j) ≠ 0 then
          cfg.segmentOn
        else s.segLines j,
      digitLines := fun i => if i = step then cfg.digitOn else s.digitLines i }

/-- lightsOff (SevSeg.cpp lines 153-160 and 177-184): deactivate the common
line of this step and all lines of the other family. -/
def lightsOff (r : Resistors) (cfg : DriveConfig) (s : DisplayState)
    (step : Nat) : DisplayState :=
  match r with
  | .onDigits =>
    { s with
      segLines := fun j => if j = step then !cfg.segmentOn else s.segLines j,
      digitLines := fun i =>
        if i < cfg.numDigits then !cfg.digitOn else s.digitLines i }
  | .onSegments =>
    { s with
      digitLines := fun i => if i = step then !cfg.digitOn else s.digitLines i,
      segLines := fun j =>
        if j < SEGMENTS then !cfg.segmentOn else s.segLines j }

/-- The cursor increment of updateDisplay (SevSeg.cpp lines 212-214): the
byte member common is incremented (mod 256, it is a byte) and reset to 0 when
it reaches REFRESH_STEPS. -/
def advance (steps c : Nat) : Nat :=
  if (c + 1) % 256 = steps then 0 else (c + 1) % 256

/-- updateDisplay (SevSeg.cpp lines 210-216): switch the current step off,
increment the byte cursor, and switch the new step on. -/
def updateDisplay (r : Resistors) (cfg : DriveConfig) (s : DisplayState) :
    DisplayState :=
  lightsOn r cfg
    { lightsOff r cfg s s.common with
      common := advance (refreshSteps r cfg.numDigits) s.common }
    (advance (refreshSteps r cfg.numDigits) s.common)

/-- clearDisplay (SevSeg.cpp lines 225-234): write the off level to every
digit line and to all S7_SEGMENTS segment lines; nothing else is touched. -/
def clearDisplay (cfg : DriveConfig) (s : DisplayState) : DisplayState :=
  { s with
    digitLines := fun i =>
      if i < cfg.numDigits then !cfg.digitOn else s.digitLines i,
    segLines := fun j =>
      if j < S7_SEGMENTS then !cfg.segmentOn else s.segLines j }

/-- A concrete configuration used by the witness theorems: 4 digits, common
cathode polarity is digitOn = false, segmentOn = true (SevSeg.cpp
lines 82-85); here both active-high for readability. -/
def sampleConfig : DriveConfig :=
  { numDigits := 4, digitOn := true, segmentOn := true }

/-- A concrete driver state used by the witness theorems. -/
def sampleState : DisplayState :=
  { digitLines := fun _ => true
    segLines := fun _ => true
    common := 2
    digitCodes := fun i => if i = 3 then 0b00000110 else 0b00111111 }

end SevSeg


namespace SevSeg

theorem pow10_pos {k : Nat} (h : k ≤ 9) : 0 < pow10 k :=
  (by decide : ∀ k, k ≤ 9 → 0 < pow10 k) k h

theorem pow10_succ {k : Nat} (h : k ≤ 8) : pow10 (k + 1) = 10 * pow10 k :=
  (by decide : ∀ k, k ≤ 8 → pow10 (k + 1) = 10 * pow10 k) k h

theorem pow10_eq_pow {k : Nat} (h : k ≤ 9) : pow10 k = (10 : Int) ^ k :=
  (by decide : ∀ k, k ≤ 9 → pow10 k = (10 : Int) ^ k) k h

theorem extractLoop_length (nd : Nat) :
    ∀ (fuel : Nat) (n : Int) (dn : Nat),
      (extractLoop nd n dn fuel).length = fuel := by
  intro fuel
  induction fuel with
  | zero => intro n dn; rfl
  | succ k ih => intro n dn; simp [extractLoop, ih]

theorem blankScan_length (bound : Int) :
    ∀ (ds : List Nat) (i : Nat),
      (blankScan bound i ds).length = ds.length := by
  intro ds
  induction ds with
  | nil => intro i; rfl
  | cons d rest ih =>
    intro i
    simp only [blankScan]
    split
    · split
      · simp [ih]
      · split <;> simp [ih]
    · simp

theorem blankScan_mem_le (bound : Int) :
    ∀ (ds : List Nat) (i : Nat), (∀ d ∈ ds, d ≤ 11) →
      ∀ d ∈ blankScan bound i ds, d ≤ 11 := by
  intro ds
  induction ds with
  | nil => intro i _ d hd; simp [blankScan] at hd
  | cons a rest ih =>
    intro i hds d hd
    have ha : a ≤ 11 := hds a (List.mem_cons_self a rest)
    have hrest : ∀ x ∈ rest, x ≤ 11 := fun x hx => hds x (List.mem_cons_of_mem a hx)
    simp only [blankScan] at hd
    split at hd
    · split at hd
      · rcases List.mem_cons.mp hd with h | h
        · simp [h, BLANK]
        · exact ih (i + 1) hrest d h
      · split at hd
        · rcases List.mem_cons.mp hd with h | h
          · exact h ▸ ha
          · exact hrest d h
        · rcases List.mem_cons.mp hd with h | h
          · exact h ▸ ha
          · exact ih (i + 1) hrest d h
    · rcases List.mem_cons.mp hd with h | h
      · exact h ▸ ha
      · exact hrest d h

end SevSeg

namespace SevSeg

theorem extractLoop_spec (nd : Nat) (h9 : nd ≤ 9) :
    ∀ (fuel : Nat) (dn : Nat) (n : Int), dn + fuel = nd → 0 ≤ n →
      n < pow10 fuel →
      (∀ d ∈ extractLoop nd n dn fuel, d ≤ 9) ∧
        digitsVal (extractLoop nd n dn fuel) = n := by
  intro fuel
  induction fuel with
  | zero =>
    intro dn n hnd hn0 hlt
    have h1 : pow10 0 = 1 := by decide
    have hn : n = 0 := by omega
    constructor
    · intro d hd; simp [extractLoop] at hd
    · simp [extractLoop, digitsVal, hn]
  | succ k ih =>
    intro dn n hnd hn0 hlt
    have hfac : nd - 1 - dn = k := by omega
    have hk9 : k ≤ 9 := by omega
    have hk8 : k ≤ 8 := by omega
    have hfpos : 0 < pow10 k := pow10_pos hk9
    set q : Int := n / pow10 k with hq
    have hq0 : 0 ≤ q := Int.ediv_nonneg hn0 (le_of_lt hfpos)
    have hq10 : q < 10 := by
      rw [hq]
      rw [Int.ediv_lt_iff_lt_mul hfpos]
      rw [pow10_succ hk8] at hlt
      linarith
    have htdiv : Int.tdiv n (pow10 k) = q := Int.tdiv_eq_ediv hn0 (le_of_lt hfpos)
    have hemod : q.emod 256 = q := Int.emod_eq_of_lt hq0 (by omega)
    have htn : ((q.toNat : Int)) = q := Int.toNat_of_nonneg hq0
    have hd9 : q.toNat ≤ 9 := by omega
    have hr : n - q * pow10 k = n % pow10 k := by
      have := Int.ediv_add_emod n (pow10 k)
      rw [← hq] at *
      linarith
    have hr0 : 0 ≤ n % pow10 k := Int.emod_nonneg n (ne_of_gt hfpos)
    have hrlt : n % pow10 k < pow10 k := Int.emod_lt_of_pos n hfpos
    have hstep : extractLoop nd n dn (k + 1) =
        q.toNat :: extractLoop nd (n - (q.toNat : Int) * pow10 k) (dn + 1) k := by
      simp only [extractLoop, hfac, htdiv, hemod]
    have hih := ih (dn + 1) (n - (q.toNat : Int) * pow10 k) (by omega)
      (by rw [htn]; omega) (by rw [htn]; omega)
    constructor
    · intro d hd
      rw [hstep] at hd
      rcases List.mem_cons.mp hd with h | h
      · exact h ▸ hd9
      · exact hih.1 d h
    · rw [hstep]
      simp only [digitsVal]
      rw [extractLoop_length, hih.2, htn, ← pow10_eq_pow hk9]
      ring_nf

theorem blankScan_filter_spec (bound : Int) :
    ∀ (ds : List Nat) (i : Nat), (∀ d ∈ ds, d ≤ 9) →
      digitsVal ((blankScan bound i ds).filter (fun g => g != BLANK)) =
          digitsVal ds ∧
        ∀ d ∈ (blankScan bound i ds).filter (fun g => g != BLANK), d ≤ 9 := by
  intro ds
  induction ds with
  | nil => intro i _; exact ⟨rfl, by intro d hd; simp [blankScan] at hd⟩
  | cons a rest ih =>
    intro i hds
    have ha : a ≤ 9 := hds a (List.mem_cons_self a rest)
    have hrest : ∀ x ∈ rest, x ≤ 9 := fun x hx =>
      hds x (List.mem_cons_of_mem a hx)
    have hnoblank : (a :: rest).filter (fun g => g != BLANK) = a :: rest := by
      apply List.filter_eq_self.mpr
      intro x hx
      have : x ≤ 9 := hds x hx
      simp [BLANK]
      omega
    by_cases hib : (i : Int) < bound
    · by_cases ha0 : a = 0
      · subst ha0
        have hbs : blankScan bound i (0 :: rest) =
            BLANK :: blankScan bound (i + 1) rest := by
          simp [blankScan, hib]
        rw [hbs]
        have hfil : (BLANK :: blankScan bound (i + 1) rest).filter
            (fun g => g != BLANK) =
            (blankScan bound (i + 1) rest).filter (fun g => g != BLANK) := by
          simp [List.filter]
        rw [hfil]
        have := ih (i + 1) hrest
        refine ⟨?_, this.2⟩
        rw [this.1]
        simp [digitsVal]
      · have hbs : blankScan bound i (a :: rest) = a :: rest := by
          simp [blankScan, hib, ha0, ha]
        rw [hbs, hnoblank]
        exact ⟨rfl, fun d hd => hds d hd⟩
    · have hbs : blankScan bound i (a :: rest) = a :: rest := by
        simp [blankScan, hib]
      rw [hbs, hnoblank]
      exact ⟨rfl, fun d hd => hds d hd⟩

theorem decodeGlyphs_dash (X : List Nat) :
    decodeGlyphs (DASH :: X) =
      -(digitsVal (X.filter (fun g => g != BLANK))) := by
  simp [decodeGlyphs, DASH, BLANK, List.filter]

theorem decodeGlyphs_of_le9 (gs : List Nat)
    (h : ∀ d ∈ gs.filter (fun g => g != BLANK), d ≤ 9) :
    decodeGlyphs gs = digitsVal (gs.filter (fun g => g != BLANK)) := by
  simp only [decodeGlyphs]
  cases hfs : gs.filter (fun g => g != BLANK) with
  | nil => simp
  | cons a l =>
    have ha : a ≤ 9 := h a (hfs ▸ List.mem_cons_self a l)
    have haD : ¬ a = DASH := by
      simp only [DASH]
      omega
    simp [hfs, haD]

theorem blankScan_cons_of_gt9 (bound : Int) (i : Nat) (d : Nat)
    (rest : List Nat) (h : 9 < d) :
    blankScan bound i (d :: rest) =
      d :: (if (i : Int) < bound then blankScan bound (i + 1) rest
            else rest) := by
  have h0 : ¬ d = 0 := by omega
  have h9 : ¬ d ≤ 9 := by omega
  simp [blankScan, h0, h9]
  split <;> rfl

theorem findDigits_inRange (nd : Nat) (v : Int) (dp : Nat)
    (h1 : minValue nd ≤ v) (h2 : v ≤ maxValue nd) :
    findDigits nd v dp =
      blankScan ((nd : Int) - 1 - (dp : Int)) 0 (rawDigits nd v) := by
  have : ¬ (v > maxValue nd ∨ v < minValue nd) := by omega
  simp [findDigits, findDigitsWith, this]

theorem decodeCode_encode :
    ∀ g, g ≤ 11 → decodeCode (digitCodeMap.getD g 0) = g ∧
      decodeCode (digitCodeMap.getD g 0 ||| 128) = g := by decide

theorem encode_lt_128 : ∀ g, g ≤ 11 → digitCodeMap.getD g 0 < 128 := by decide

theorem map_decode_setDigitCodes (nd dp : Nat) (digits : List Nat)
    (hlen : digits.length = nd) (hg : ∀ g ∈ digits, g ≤ 11) :
    (setDigitCodes nd digits dp).map decodeCode = digits := by
  apply List.ext_getElem
  · simp [setDigitCodes, hlen]
  · intro i h1 h2
    simp only [setDigitCodes, List.getElem_map, List.getElem_range]
    have hi : i < digits.length := h2
    have hgd : digits.getD i 0 = digits[i] := List.getD_eq_getElem digits 0 hi
    have hgi : digits[i] ≤ 11 := hg _ (List.getElem_mem hi)
    rw [hgd]
    split
    · exact (decodeCode_encode digits[i] hgi).2
    · exact (decodeCode_encode digits[i] hgi).1

theorem filter_eq_self_of_le9 (l : List Nat) (h : ∀ d ∈ l, d ≤ 9) :
    l.filter (fun g => g != BLANK) = l := by
  apply List.filter_eq_self.mpr
  intro x hx
  have := h x hx
  simp [BLANK]
  omega

theorem rawDigits_nonneg_spec (nd : Nat) (h9 : nd ≤ 9) (v : Int)
    (h0 : 0 ≤ v) (hhi : v ≤ maxValue nd) :
    (∀ d ∈ rawDigits nd v, d ≤ 9) ∧ digitsVal (rawDigits nd v) = v := by
  have hlt : v < pow10 nd := by
    simp only [maxValue] at hhi
    omega
  have := extractLoop_spec nd h9 nd 0 v (by omega) h0 hlt
  have hneg : ¬ v < 0 := by omega
  simpa [rawDigits, hneg] using this

theorem rawDigits_neg_spec (nd : Nat) (h1 : 1 ≤ nd) (h9 : nd ≤ 9) (v : Int)
    (hneg : v < 0) (hlo : minValue nd ≤ v) :
    rawDigits nd v = DASH :: extractLoop nd (-v) 1 (nd - 1) ∧
      (∀ d ∈ extractLoop nd (-v) 1 (nd - 1), d ≤ 9) ∧
      digitsVal (extractLoop nd (-v) 1 (nd - 1)) = -v := by
  have hlt : -v < pow10 (nd - 1) := by
    simp only [minValue] at hlo
    omega
  have := extractLoop_spec nd h9 (nd - 1) 1 (-v) (by omega) (by omega) hlt
  exact ⟨by simp [rawDigits, hneg], this.1, this.2⟩

theorem rawDigits_length (nd : Nat) (h1 : 1 ≤ nd) (v : Int) :
    (rawDigits nd v).length = nd := by
  unfold rawDigits
  split
  · simp [extractLoop_length]
    omega
  · simp [extractLoop_length]

theorem findDigits_length (nd : Nat) (h1 : 1 ≤ nd) (v : Int) (dp : Nat) :
    (findDigits nd v dp).length = nd := by
  by_cases hrange : v > maxValue nd ∨ v < minValue nd
  · simp [findDigits, findDigitsWith, hrange]
  · simp [findDigits, findDigitsWith, hrange, blankScan_length,
      rawDigits_length nd h1 v]

theorem findDigits_mem_le11 (nd : Nat) (h1 : 1 ≤ nd) (h9 : nd ≤ 9) (v : Int)
    (dp : Nat) : ∀ d ∈ findDigits nd v dp, d ≤ 11 := by
  by_cases hrange : v > maxValue nd ∨ v < minValue nd
  · intro d hd
    simp [findDigits, findDigitsWith, hrange] at hd
    rcases hd with ⟨-, h⟩
    simp [h, DASH]
  · rw [findDigits_inRange nd v dp (by omega) (by omega)]
    apply blankScan_mem_le
    intro d hd
    by_cases hv : 0 ≤ v
    · have := (rawDigits_nonneg_spec nd h9 v hv (by omega)).1 d hd
      omega
    · obtain ⟨heq, hle, -⟩ := rawDigits_neg_spec nd h1 h9 v (by omega) (by omega)
      rw [heq] at hd
      rcases List.mem_cons.mp hd with h | h
      · simp [h, DASH]
      · have := hle d h
        omega

theorem decode_findDigits (nd : Nat) (h1 : 1 ≤ nd) (h9 : nd ≤ 9) (v : Int)
    (dp : Nat) (hlo : minValue nd ≤ v) (hhi : v ≤ maxValue nd) :
    decodeGlyphs (findDigits nd v dp) = v := by
  rw [findDigits_inRange nd v dp hlo hhi]
  set bound : Int := (nd : Int) - 1 - (dp : Int) with hbound
  by_cases hv : 0 ≤ v
  · obtain ⟨hle, hval⟩ := rawDigits_nonneg_spec nd h9 v hv hhi
    obtain ⟨hfval, hfle⟩ := blankScan_filter_spec bound (rawDigits nd v) 0 hle
    rw [decodeGlyphs_of_le9 _ hfle, hfval, hval]
  · obtain ⟨heq, hle, hval⟩ := rawDigits_neg_spec nd h1 h9 v (by omega) hlo
    rw [heq, blankScan_cons_of_gt9 bound 0 DASH _ (by simp [DASH]),
      decodeGlyphs_dash]
    split
    · obtain ⟨hfval, -⟩ :=
        blankScan_filter_spec bound (extractLoop nd (-v) 1 (nd - 1)) 1 hle
      rw [hfval, hval]
      omega
    · rw [filter_eq_self_of_le9 _ hle, hval]
      omega

theorem blankScan_getD (bound : Int) :
    ∀ (ds : List Nat) (i j : Nat), j < ds.length →
      (blankScan bound i ds).getD j 0 =
        if ((i : Int) + (j : Int) < bound ∧ ds.getD j 0 = 0 ∧
            ∀ k, k < j → ¬(1 ≤ ds.getD k 0 ∧ ds.getD k 0 ≤ 9)) then BLANK
        else ds.getD j 0 := by
  intro ds
  induction ds with
  | nil => intro i j hj; simp at hj
  | cons d rest ih =>
    intro i j hj
    by_cases hib : (i : Int) < bound
    · by_cases hd0 : d = 0
      · subst hd0
        have hbs : blankScan bound i (0 :: rest) =
            BLANK :: blankScan bound (i + 1) rest := by
          simp [blankScan, hib]
        rw [hbs]
        cases j with
        | zero =>
          have hcond : (i : Int) + ((0 : Nat) : Int) < bound ∧
              (0 :: rest).getD 0 0 = 0 ∧
              ∀ k, k < 0 → ¬(1 ≤ (0 :: rest).getD k 0 ∧
                (0 :: rest).getD k 0 ≤ 9) := by
            refine ⟨by push_cast; omega, rfl, fun k hk => absurd hk (by omega)⟩
          rw [if_pos hcond]
          rfl
        | succ m =>
          have hm : m < rest.length := by simpa using hj
          rw [List.getD_cons_succ, List.getD_cons_succ, ih (i + 1) m hm]
          apply if_congr _ rfl rfl
          constructor
          · rintro ⟨hA, hB, hC⟩
            refine ⟨by push_cast at hA ⊢; omega, hB, ?_⟩
            intro k hk
            cases k with
            | zero => simp
            | succ q =>
              rw [List.getD_cons_succ]
              exact hC q (by omega)
          · rintro ⟨hA, hB, hC⟩
            refine ⟨by push_cast at hA ⊢; omega, hB, ?_⟩
            intro k hk
            have := hC (k + 1) (by omega)
            rwa [List.getD_cons_succ] at this
      · by_cases hd9 : d ≤ 9
        · have hbs : blankScan bound i (d :: rest) = d :: rest := by
            simp [blankScan, hib, hd0, hd9]
          rw [hbs]
          cases j with
          | zero =>
            rw [if_neg]
            rintro ⟨-, hB, -⟩
            exact hd0 hB
          | succ m =>
            rw [if_neg]
            rintro ⟨-, -, hC⟩
            have h0 : (d :: rest).getD 0 0 = d := rfl
            exact hC 0 (by omega) (by rw [h0]; exact ⟨by omega, hd9⟩)
        · have hbs : blankScan bound i (d :: rest) =
              d :: blankScan bound (i + 1) rest := by
            simp [blankScan, hib, hd0, hd9]
          rw [hbs]
          cases j with
          | zero =>
            rw [if_neg]
            · rfl
            · rintro ⟨-, hB, -⟩
              exact hd0 hB
          | succ m =>
            have hm : m < rest.length := by simpa using hj
            rw [List.getD_cons_succ, List.getD_cons_succ, ih (i + 1) m hm]
            apply if_congr _ rfl rfl
            constructor
            · rintro ⟨hA, hB, hC⟩
              refine ⟨by push_cast at hA ⊢; omega, hB, ?_⟩
              intro k hk
              cases k with
              | zero =>
                rw [List.getD_cons_zero]
                rintro ⟨-, h9⟩
                omega
              | succ q =>
                rw [List.getD_cons_succ]
                exact hC q (by omega)
            · rintro ⟨hA, hB, hC⟩
              refine ⟨by push_cast at hA ⊢; omega, hB, ?_⟩
              intro k hk
              have := hC (k + 1) (by omega)
              rwa [List.getD_cons_succ] at this
    · have hbs : blankScan bound i (d :: rest) = d :: rest := by
        simp [blankScan, hib]
      rw [hbs, if_neg]
      rintro ⟨hA, -, -⟩
      omega

theorem setDigitCodes_getD (nd dp : Nat) (digits : List Nat) (i : Nat)
    (hi : i < nd) :
    (setDigitCodes nd digits dp).getD i 0 =
      (if (i : Int) = (nd : Int) - 1 - (dp : Int) then
        digitCodeMap.getD (digits.getD i 0) 0 ||| 128
      else digitCodeMap.getD (digits.getD i 0) 0) := by
  rw [setDigitCodes, List.getD_eq_getElem _ _ (by simp [hi]),
    List.getElem_map, List.getElem_range]

/-- C1: for every in-range value and decimalPlaces in [0, digitCount - 1],
running findDigits then setDigitCodes and decoding the segment codes back
through the glyph table (ignoring BLANK positions, a leading DASH read as a
minus sign) reconstructs the value. -/
theorem claim_C1_roundtrip (nd : Nat) (v : Int) (dp : Nat)
    (h1 : 1 ≤ nd) (h9 : nd ≤ 9) (hdp : dp ≤ nd - 1)
    (hlo : minValue nd ≤ v) (hhi : v ≤ maxValue nd) :
    decodeGlyphs ((setDigitCodes nd (findDigits nd v dp) dp).map decodeCode) =
      v := by
  rw [map_decode_setDigitCodes nd dp _ (findDigits_length nd h1 v dp)
    (findDigits_mem_le11 nd h1 h9 v dp)]
  exact decode_findDigits nd h1 h9 v dp hlo hhi

theorem claim_C1_witness :
    minValue 4 ≤ (-123 : Int) ∧ (-123 : Int) ≤ maxValue 4 ∧
      decodeGlyphs
        ((setDigitCodes 4 (findDigits 4 (-123) 1) 1).map decodeCode) =
        -123 :=
  ⟨by decide, by decide,
    claim_C1_roundtrip 4 (-123) 1 (by decide) (by decide) (by decide)
      (by decide) (by decide)⟩

/-- C2 counterexample: with decimalPlaces = digitCount (here 4), the
comparison digitNum == numDigits - 1 - decPlaces is int arithmetic against a
negative bound, so no position at all receives the decimal-point bit; the
claim as stated (exactly one code gets bit 7 for every decimalPlaces) fails. -/
theorem claim_C2_counterexample :
    ((setDigitCodes 4 [0, 0, 0, 0] 4).filter
      (fun c => Nat.testBit c 7)).length = 0 := by decide

/-- C2 (amended): for decimalPlaces in [0, digitCount - 1], setDigitCodes
sets bit 7 on exactly one segment code, the one at index
digitCount - 1 - decimalPlaces, regardless of whether the glyph there is a
digit, BLANK, or DASH. -/
theorem claim_C2_decimal_point (nd dp : Nat) (digits : List Nat)
    (hg : ∀ g ∈ digits, g ≤ 11) (hdp : dp < nd)
    (i : Nat) (hi : i < nd) :
    (Nat.testBit ((setDigitCodes nd digits dp).getD i 0) 7 = true ↔
      i = nd - 1 - dp) := by
  rw [setDigitCodes_getD nd dp digits i hi]
  have hgmem : digits.getD i 0 ≤ 11 := by
    by_cases hlt : i < digits.length
    · rw [List.getD_eq_getElem digits 0 hlt]
      exact hg _ (List.getElem_mem hlt)
    · rw [List.getD_eq_default _ _ (by omega)]
      omega
  have hcode : digitCodeMap.getD (digits.getD i 0) 0 < 128 :=
    encode_lt_128 _ hgmem
  by_cases hieq : (i : Int) = (nd : Int) - 1 - (dp : Int)
  · rw [if_pos hieq, Nat.testBit_lor]
    have h128 : Nat.testBit 128 7 = true := by decide
    simp [h128]
    omega
  · rw [if_neg hieq]
    have hbit : Nat.testBit (digitCodeMap.getD (digits.getD i 0) 0) 7 =
        false :=
      Nat.testBit_lt_two_pow (lt_of_lt_of_le hcode (by norm_num))
    rw [hbit]
    simp
    omega

theorem claim_C2_witness :
    (∀ g ∈ [10, 10, 10, 7], g ≤ 11) ∧ 0 < 4 ∧ 3 < 4 ∧ 0 < 4 ∧
      Nat.testBit ((setDigitCodes 4 [10, 10, 10, 7] 0).getD 3 0) 7 = true ∧
      ¬ Nat.testBit ((setDigitCodes 4 [10, 10, 10, 7] 0).getD 0 0) 7 = true :=
  ⟨by decide, by decide, by decide, by decide,
    (claim_C2_decimal_point 4 0 [10, 10, 10, 7] (by decide) (by decide) 3
      (by decide)).mpr (by decide),
    fun h => by
      have := (claim_C2_decimal_point 4 0 [10, 10, 10, 7] (by decide)
        (by decide) 0 (by decide)).mp h
      simp at this⟩

/-- C3: every value strictly outside [minValue, maxValue] makes findDigits
fill all positions with DASH and perform no digit decomposition. -/
theorem claim_C3_overflow (nd : Nat) (v : Int) (dp : Nat)
    (h : v > maxValue nd ∨ v < minValue nd) :
    findDigits nd v dp = List.replicate nd DASH := by
  unfold findDigits findDigitsWith
  rw [if_pos h]

theorem claim_C3_witness :
    ((10000 : Int) > maxValue 4 ∨ (10000 : Int) < minValue 4) ∧
      findDigits 4 10000 0 = List.replicate 4 DASH :=
  ⟨Or.inl (by decide), claim_C3_overflow 4 10000 0 (Or.inl (by decide))⟩

/-- C4: for every negative value, position 0 of the findDigits output is
DASH; in range, the sign branch places the DASH and decomposes the absolute
value over the remaining digitCount - 1 positions; below minValue every
position is DASH. -/
theorem claim_C4_negative (nd : Nat) (v : Int) (dp : Nat)
    (h1 : 1 ≤ nd) (h9 : nd ≤ 9) (hneg : v < 0) :
    (findDigits nd v dp).head? = some DASH ∧
      (minValue nd ≤ v →
        findDigits nd v dp =
          blankScan ((nd : Int) - 1 - (dp : Int)) 0
            (DASH :: extractLoop nd (-v) 1 (nd - 1))) ∧
      (v < minValue nd → findDigits nd v dp = List.replicate nd DASH) := by
  have hmax : 0 ≤ maxValue nd := by
    have := pow10_pos h9
    simp only [maxValue]
    omega
  by_cases hm : minValue nd ≤ v
  · have heq := findDigits_inRange nd v dp hm (by omega)
    have hraw : rawDigits nd v = DASH :: extractLoop nd (-v) 1 (nd - 1) := by
      simp [rawDigits, hneg]
    refine ⟨?_, fun _ => by rw [heq, hraw], fun hc => absurd hc (by omega)⟩
    rw [heq, hraw, blankScan_cons_of_gt9 _ _ _ _ (by simp [DASH])]
    rfl
  · have hout : findDigits nd v dp = List.replicate nd DASH := by
      unfold findDigits findDigitsWith
      rw [if_pos (Or.inr (by omega))]
    refine ⟨?_, fun hc => absurd hc hm, fun _ => hout⟩
    rw [hout]
    cases nd with
    | zero => omega
    | succ k => simp [List.replicate]

theorem claim_C4_witness :
    (1 ≤ 4 ∧ 4 ≤ 9 ∧ (-1000 : Int) < 0) ∧
      (findDigits 4 (-1000) 0).head? = some DASH ∧
      findDigits 4 (-1000) 0 = List.replicate 4 DASH :=
  ⟨⟨by decide, by decide, by decide⟩,
    (claim_C4_negative 4 (-1000) 0 (by decide) (by decide) (by decide)).1,
    (claim_C4_negative 4 (-1000) 0 (by decide) (by decide) (by decide)).2.2
      (by decide)⟩

/-- C5 counterexample: the blanking scan of findDigits does not stop at the
first nonzero glyph: at digitCount 4, value -5, decimalPlaces 0, position 0
holds the nonzero glyph DASH, yet positions 1 and 2 are still blanked.  A
scan that blanks exactly the zero glyphs below the bound and stops at the
first nonzero glyph (specBlankScan, the claim as worded) leaves the digits
untouched and therefore disagrees with the code. -/
theorem claim_C5_counterexample :
    findDigits 4 (-5) 0 = [DASH, BLANK, BLANK, 5] ∧
      specBlankScan ((4 : Int) - 1 - 0) 0 (rawDigits 4 (-5)) =
        [DASH, 0, 0, 5] ∧
      rawDigits 4 (-5) = [DASH, 0, 0, 5] := by decide

/-- C5 (amended): for every in-range value, the blanking pass replaces
position j with BLANK exactly when j is strictly below
digitCount - 1 - decimalPlaces, the glyph at j is 0, and no earlier position
holds a nonzero digit glyph (1..9); glyphs greater than 9, such as the DASH
of a negative value, neither stop the scan nor are blanked, and positions at
or beyond the bound are never blanked. -/
theorem claim_C5_blanking (nd : Nat) (v : Int) (dp : Nat)
    (h1 : 1 ≤ nd) (h9 : nd ≤ 9) (hlo : minValue nd ≤ v)
    (hhi : v ≤ maxValue nd) (j : Nat) (hj : j < nd) :
    (findDigits nd v dp).getD j 0 =
      if ((j : Int) < (nd : Int) - 1 - (dp : Int) ∧
          (rawDigits nd v).getD j 0 = 0 ∧
          ∀ k, k < j → ¬(1 ≤ (rawDigits nd v).getD k 0 ∧
            (rawDigits nd v).getD k 0 ≤ 9)) then BLANK
      else (rawDigits nd v).getD j 0 := by
  rw [findDigits_inRange nd v dp hlo hhi]
  have hlen : j < (rawDigits nd v).length := by
    rw [rawDigits_length nd h1 v]
    omega
  have := blankScan_getD ((nd : Int) - 1 - (dp : Int)) (rawDigits nd v) 0 j
    hlen
  simpa using this

theorem claim_C5_witness :
    (minValue 4 ≤ (-5 : Int) ∧ (-5 : Int) ≤ maxValue 4 ∧ 1 < 4) ∧
      (findDigits 4 (-5) 0).getD 1 0 =
        (if ((1 : Int) < (4 : Int) - 1 - (0 : Int) ∧
            (rawDigits 4 (-5)).getD 1 0 = 0 ∧
            ∀ k, k < 1 → ¬(1 ≤ (rawDigits 4 (-5)).getD k 0 ∧
              (rawDigits 4 (-5)).getD k 0 ≤ 9)) then BLANK
        else (rawDigits 4 (-5)).getD 1 0) :=
  ⟨⟨by decide, by decide, by decide⟩,
    claim_C5_blanking 4 (-5) 0 (by decide) (by decide) (by decide)
      (by decide) 1 (by decide)⟩

theorem advance_eq_mod (steps c : Nat) (h : c < steps) (h255 : steps ≤ 255) :
    advance steps c = (c + 1) % steps := by
  unfold advance
  have h256 : (c + 1) % 256 = c + 1 := Nat.mod_eq_of_lt (by omega)
  rw [h256]
  by_cases he : c + 1 = steps
  · rw [if_pos he, he, Nat.mod_self]
  · rw [if_neg he, Nat.mod_eq_of_lt (by omega)]

theorem lightsOn_common (r : Resistors) (cfg : DriveConfig) (s : DisplayState)
    (step : Nat) : (lightsOn r cfg s step).common = s.common := by
  cases r <;> rfl

theorem lightsOn_digitCodes (r : Resistors) (cfg : DriveConfig)
    (s : DisplayState) (step : Nat) :
    (lightsOn r cfg s step).digitCodes = s.digitCodes := by
  cases r <;> rfl

theorem lightsOff_digitCodes (r : Resistors) (cfg : DriveConfig)
    (s : DisplayState) (step : Nat) :
    (lightsOff r cfg s step).digitCodes = s.digitCodes := by
  cases r <;> rfl

/-- C6: from a cursor in [0, stepCount), one updateDisplay call switches the
current cursor step off, advances the cursor to (old + 1) mod stepCount,
and switches the new cursor step on; hence the cursor stays inside
[0, stepCount). -/
theorem claim_C6_cursor (r : Resistors) (cfg : DriveConfig) (s : DisplayState)
    (h : s.common < refreshSteps r cfg.numDigits)
    (h255 : refreshSteps r cfg.numDigits ≤ 255) :
    updateDisplay r cfg s =
      lightsOn r cfg
        { lightsOff r cfg s s.common with
          common := (s.common + 1) % refreshSteps r cfg.numDigits }
        ((s.common + 1) % refreshSteps r cfg.numDigits) ∧
      (updateDisplay r cfg s).common =
        (s.common + 1) % refreshSteps r cfg.numDigits ∧
      (updateDisplay r cfg s).common < refreshSteps r cfg.numDigits := by
  have ha := advance_eq_mod (refreshSteps r cfg.numDigits) s.common h h255
  have hcom : (updateDisplay r cfg s).common =
      (s.common + 1) % refreshSteps r cfg.numDigits := by
    unfold updateDisplay
    rw [lightsOn_common, ha]
  refine ⟨?_, hcom, ?_⟩
  · unfold updateDisplay
    rw [ha]
  · rw [hcom]
    exact Nat.mod_lt _ (by omega)

theorem claim_C6_witness :
    (sampleState.common < refreshSteps .onSegments sampleConfig.numDigits ∧
      refreshSteps .onSegments sampleConfig.numDigits ≤ 255) ∧
      (updateDisplay .onSegments sampleConfig sampleState).common =
        (sampleState.common + 1) %
          refreshSteps .onSegments sampleConfig.numDigits :=
  ⟨⟨by decide, by decide⟩,
    (claim_C6_cursor .onSegments sampleConfig sampleState (by decide)
      (by decide)).2.1⟩

/-- C7: clearDisplay writes the inactive level to every digit line and to all
8 segment lines, for every driver state, cursor, segment codes and
polarity. -/
theorem claim_C7_clear (cfg : DriveConfig) (s : DisplayState) :
    (∀ i, i < cfg.numDigits →
        (clearDisplay cfg s).digitLines i = !cfg.digitOn) ∧
      ∀ j, j < 8 → (clearDisplay cfg s).segLines j = !cfg.segmentOn := by
  constructor <;> intro x hx <;> simp [clearDisplay, S7_SEGMENTS, hx]

theorem claim_C7_witness :
    (clearDisplay sampleConfig sampleState).digitLines 0 =
        !sampleConfig.digitOn ∧
      (clearDisplay sampleConfig sampleState).segLines 7 =
        !sampleConfig.segmentOn :=
  ⟨(claim_C7_clear sampleConfig sampleState).1 0 (by decide),
    (claim_C7_clear sampleConfig sampleState).2 7 (by decide)⟩

/-- C9: the range bounds of findDigits are computed from the digit count only
when not yet cached (the C++ static-local first call) and are reused
unchanged afterwards; hence with bounds cached from digit count nd1, a later
call under a different digit count nd2 still classifies values by the nd1
bounds, and a value outside them is rendered all-DASH even when it fits nd2
digits. -/
theorem claim_C9_static_bounds (nd1 nd2 : Nat) (v w : Int) (dp dq : Nat)
    (hout : w > maxValue nd1 ∨ w < minValue nd1) :
    (findDigitsStateful nd1 none v dp).1 =
        some (maxValue nd1, minValue nd1) ∧
      (∀ c : Int × Int,
        (findDigitsStateful nd2 (some c) w dq).1 = some c) ∧
      (findDigitsStateful nd2 (some (maxValue nd1, minValue nd1)) w dq).2 =
        List.replicate nd2 DASH := by
  refine ⟨rfl, fun c => rfl, ?_⟩
  show findDigitsWith (maxValue nd1) (minValue nd1) nd2 w dq =
    List.replicate nd2 DASH
  unfold findDigitsWith
  rw [if_pos hout]

theorem claim_C9_witness :
    ((500 : Int) > maxValue 2 ∨ (500 : Int) < minValue 2) ∧
      (500 : Int) ≤ maxValue 4 ∧
      (findDigitsStateful 4 (some (maxValue 2, minValue 2)) 500 0).2 =
        List.replicate 4 DASH :=
  ⟨Or.inl (by decide), by decide,
    (claim_C9_static_bounds 2 4 0 500 0 0 (Or.inl (by decide))).2.2⟩

/-- C10: clearDisplay leaves the cursor and the segment-code array unchanged,
so the next updateDisplay advances from the pre-clear cursor and, with
resistors on segments, re-illuminates the new cursor digit from the
still-stored segment codes. -/
theorem claim_C10_clear_keeps_state (r : Resistors) (cfg : DriveConfig)
    (s : DisplayState) (h : s.common < refreshSteps r cfg.numDigits)
    (h255 : refreshSteps r cfg.numDigits ≤ 255) :
    (clearDisplay cfg s).common = s.common ∧
      (clearDisplay cfg s).digitCodes = s.digitCodes ∧
      (updateDisplay r cfg (clearDisplay cfg s)).common =
        (s.common + 1) % refreshSteps r cfg.numDigits ∧
      (r = .onSegments →
        (updateDisplay r cfg (clearDisplay cfg s)).digitLines
            ((s.common + 1) % cfg.numDigits) = cfg.digitOn ∧
          ∀ j, j < 8 →
            (updateDisplay r cfg (clearDisplay cfg s)).segLines j =
              if s.digitCodes ((s.common + 1) % cfg.numDigits) &&&
                  (1 <<< j) ≠ 0 then
                cfg.segmentOn
              else !cfg.segmentOn) := by
  have ha := advance_eq_mod (refreshSteps r cfg.numDigits) s.common h h255
  refine ⟨rfl, rfl, ?_, ?_⟩
  · unfold updateDisplay
    rw [lightsOn_common]
    show advance (refreshSteps r cfg.numDigits) (clearDisplay cfg s).common =
      _
    rw [show (clearDisplay cfg s).common = s.common from rfl, ha]
  · rintro rfl
    have hsteps : refreshSteps Resistors.onSegments cfg.numDigits =
        cfg.numDigits := rfl
    have hc : advance (refreshSteps Resistors.onSegments cfg.numDigits)
        (clearDisplay cfg s).common = (s.common + 1) % cfg.numDigits := by
      rw [show (clearDisplay cfg s).common = s.common from rfl, ha, hsteps]
    constructor
    · unfold updateDisplay
      rw [hc]
      simp [lightsOn]
    · intro j hj
      unfold updateDisplay
      rw [hc]
      simp only [lightsOn, lightsOff, clearDisplay]
      by_cases hbit : s.digitCodes ((s.common + 1) % cfg.numDigits) &&&
          (1 <<< j) ≠ 0
      · simp [hbit, hj, SEGMENTS]
      · simp [hbit, hj, SEGMENTS]

theorem claim_C10_witness :
    (sampleState.common < refreshSteps .onSegments sampleConfig.numDigits ∧
      refreshSteps .onSegments sampleConfig.numDigits ≤ 255) ∧
      (clearDisplay sampleConfig sampleState).common = sampleState.common ∧
      (updateDisplay .onSegments sampleConfig
          (clearDisplay sampleConfig sampleState)).digitLines
          ((sampleState.common + 1) % sampleConfig.numDigits) =
        sampleConfig.digitOn :=
  ⟨⟨by decide, by decide⟩,
    (claim_C10_clear_keeps_state .onSegments sampleConfig sampleState
      (by decide) (by decide)).1,
    ((claim_C10_clear_keeps_state .onSegments sampleConfig sampleState
      (by decide) (by decide)).2.2.2 rfl).1⟩

end SevSeg
